import Mathlib

/-!
Verification of the intra-procedural memory-safety analyzer
(abstract domain, checkers, points-to analysis and chaotic-iteration
dataflow engine) against its natural-language specification.

The definitions below are shallow embeddings of the C++ sources:
  * `Domain`, `Domain.join`, `Domain.equal`  — src/Domain.cpp, include/Domain.h
  * `doubleFreeCheck`                        — src/DoubleFreeAnalysis.cpp
  * `useAfterFreeCheck`                      — src/UseAfterFreeAnalysis.cpp
  * `dfTransfer`                             — src/Transfer.cpp
  * `memJoin`, `flowIn`, `memEqual`,
    `flowOutNew`, `engStep`, `engRun`        — src/ChaoticIteration.cpp
  * `ptTransfer`, `ptPass`, `ptIter`         — src/PointerAnalysis.cpp

Definitions marked "Modelled from the spec" replace code that the
repository only declares or references (Utils.h is not part of the
repository; `PointerAnalysis::analyzeNullGuards` is declared in
include/PointerAnalysis.h but has no definition).
-/

namespace dataflow

/-- The freshness component of the abstract domain (`Domain::Element`,
include/Domain.h). `Uninit` is bottom, `MaybeFreed` is top. -/
inductive Element
  | Uninit
  | Live
  | Freed
  | MaybeFreed
  deriving DecidableEq, Repr, Fintype

/-- The nullness component of the abstract domain (`Domain::NullState`,
include/Domain.h). -/
inductive NullState
  | Unknown
  | Null
  | NotNull
  | MaybeNull
  deriving DecidableEq, Repr, Fintype

/-- An abstract value: a pair of freshness and nullness
(class `Domain`, include/Domain.h; fields `Value` and `Nstate`). -/
structure Domain where
  value : Element
  nstate : NullState
  deriving DecidableEq, Repr, Fintype

/-- `Domain::join` (src/Domain.cpp, lines 27-81), translated branch by
branch.  Note that the two `Uninit` branches return the *other* argument
wholesale, including its nullness, and that each remaining branch computes
the joined nullness with its own inline conditional chain exactly as the
source does. -/
def Domain.join (E1 E2 : Domain) : Domain :=
  if E1.value = Element.Uninit then
    ⟨E2.value, E2.nstate⟩
  else if E2.value = Element.Uninit then
    ⟨E1.value, E1.nstate⟩
  else if E1.value = Element.MaybeFreed ∨ E2.value = Element.MaybeFreed then
    let jn :=
      if E1.nstate = NullState.Unknown then E2.nstate
      else if E2.nstate = NullState.Unknown then E1.nstate
      else if E1.nstate = NullState.MaybeNull ∨ E2.nstate = NullState.MaybeNull then
        NullState.MaybeNull
      else if E1.nstate = E2.nstate then E1.nstate
      else NullState.MaybeNull
    ⟨Element.MaybeFreed, jn⟩
  else if E1.value = Element.Live ∧ E2.value = Element.Live then
    let jn :=
      if E1.nstate = NullState.Unknown then E2.nstate
      else if E2.nstate = NullState.Unknown then E1.nstate
      else if E1.nstate = E2.nstate then E1.nstate
      else NullState.MaybeNull
    ⟨Element.Live, jn⟩
  else if E1.value = Element.Freed ∧ E2.value = Element.Freed then
    let jn :=
      if E1.nstate = NullState.Unknown then E2.nstate
      else if E2.nstate = NullState.Unknown then E1.nstate
      else if E1.nstate = E2.nstate then E1.nstate
      else NullState.MaybeNull
    ⟨Element.Freed, jn⟩
  else
    let jn :=
      if E1.nstate = NullState.Unknown then E2.nstate
      else if E2.nstate = NullState.Unknown then E1.nstate
      else if E1.nstate = NullState.MaybeNull ∨ E2.nstate = NullState.MaybeNull then
        NullState.MaybeNull
      else if E1.nstate = E2.nstate then E1.nstate
      else NullState.MaybeNull
    ⟨Element.MaybeFreed, jn⟩

/-- `Domain::equal` (src/Domain.cpp, lines 83-85): pairwise equality of
the two components. -/
def Domain.equal (E1 E2 : Domain) : Bool :=
  E1.value = E2.value ∧ E1.nstate = E2.nstate

/-- The bottom abstract value `(Uninit, Unknown)` (default `Domain`
constructor, src/Domain.cpp lines 9-12). -/
def Domain.bot : Domain := ⟨Element.Uninit, NullState.Unknown⟩

/-- The freshness join as the specification §4.3 states it:
`Uninit` is the identity, equal definite values are preserved, and every
other combination gives `MaybeFreed`. -/
def join_f : Element → Element → Element
  | Element.Uninit, x => x
  | x, Element.Uninit => x
  | Element.Live, Element.Live => Element.Live
  | Element.Freed, Element.Freed => Element.Freed
  | _, _ => Element.MaybeFreed

/-- The nullness join as the specification §4.3 states it: `Unknown` is
the identity, `x ⊔ x = x`, `MaybeNull` is absorbing, and distinct definite
values give `MaybeNull`. -/
def join_n : NullState → NullState → NullState
  | NullState.Unknown, x => x
  | x, NullState.Unknown => x
  | NullState.MaybeNull, _ => NullState.MaybeNull
  | _, NullState.MaybeNull => NullState.MaybeNull
  | x, y => if x = y then x else NullState.MaybeNull

/-- The component-wise join that the specification §4.3 prescribes for
abstract values. -/
def specJoin (a b : Domain) : Domain :=
  ⟨join_f a.value b.value, join_n a.nstate b.nstate⟩

/-- An IR value as the analyses see it: its SSA name, whether its type is
a pointer type, whether its type is an integer type, and whether it is the
literal null-pointer constant. -/
structure Val where
  name : String
  isPtrTy : Bool
  isIntTy : Bool
  isNullConst : Bool
  deriving DecidableEq, Repr

/-- Modelled from the spec: `variable` comes from `Utils.h`, which is not
part of the repository; per §3 an SSA name is "a stable textual identifier
for an IR value". -/
def varName (v : Val) : String := v.name

/-- An abstract memory (`Memory` = `std::map<std::string, Domain*>`):
an association list from SSA name to abstract value, at most one entry
per key. -/
abbrev Memory : Type := List (String × Domain)

/-- Lookup of a key in an abstract memory (`Memory::find`). -/
def memLookup (k : String) (m : Memory) : Option Domain :=
  (m.find? (fun p => p.1 = k)).map (fun p => p.2)

/-- Modelled from the spec: `getOrExtract` comes from `Utils.h`, which is
not part of the repository; per §3 of the spec, "missing keys are
interpreted as `(Uninit, Unknown)`". -/
def getOrExtract (m : Memory) (v : Val) : Domain :=
  (memLookup (varName v) m).getD Domain.bot

/-- An instruction as the dataflow analyses and checkers dispatch on it
(the `dyn_cast` chains of Transfer.cpp and the checkers).  A call carries
the callee name when `getCalledFunction` resolves it (`none` for indirect
calls), its result value, whether its return type is an integer type, and
its argument list. -/
inductive Inst
  | phi (res : Val) (incs : List Val) (constVal : Option Val)
  | binop (res : Val) (lhs rhs : Val)
  | cast (res : Val) (op : Val)
  | cmp (res : Val) (lhs rhs : Val)
  | alloca (res : Val)
  | store (val : Val) (ptr : Val)
  | load (res : Val) (ptr : Val)
  | gep (res : Val) (base : Val)
  | branch
  | call (callee : Option String) (res : Val) (retIsInt : Bool) (args : List Val)
  | ret
  | other
  deriving DecidableEq, Repr

/-- Whether an abstract value's freshness is `Freed` or `MaybeFreed` —
the condition both checkers test on the in-state. -/
def freedish (m : Memory) (v : Val) : Prop :=
  (getOrExtract m v).value = Element.Freed ∨ (getOrExtract m v).value = Element.MaybeFreed

instance (m : Memory) (v : Val) : Decidable (freedish m v) := by
  unfold freedish; infer_instance

/-- `DoubleFreeAnalysis::check` (src/DoubleFreeAnalysis.cpp, lines
12-43): flag a call whose resolved callee is named `free`, that has at
least one argument, and whose first argument is `Freed` or `MaybeFreed`
in the given in-state. -/
def doubleFreeCheck (inMem : Memory) (i : Inst) : Bool :=
  match i with
  | Inst.call callee _ _ args =>
    match callee with
    | none => false
    | some fn =>
      if fn ≠ "free" then false
      else
        match args with
        | [] => false
        | p :: _ => decide (freedish inMem p)
  | _ => false

/-- `UseAfterFreeAnalysis::check` (src/UseAfterFreeAnalysis.cpp, lines
12-54): flag a load or store whose pointer operand is `Freed` or
`MaybeFreed` in the in-state, and flag any call that passes a
pointer-typed argument that is `Freed` or `MaybeFreed`.  The source does
not special-case calls to `free`. -/
def useAfterFreeCheck (inMem : Memory) (i : Inst) : Bool :=
  match i with
  | Inst.load _ ptr => decide (freedish inMem ptr)
  | Inst.store _ ptr => decide (freedish inMem ptr)
  | Inst.call _ _ _ args =>
    args.any (fun a => a.isPtrTy && decide (freedish inMem a))
  | _ => false

/-- The spec-side description of "a deallocation call with argument `p`":
a call whose resolved callee is `free`; yields its first argument. -/
def freeCallArg : Inst → Option Val
  | Inst.call (some fn) _ _ (p :: _) => if fn = "free" then some p else none
  | _ => none

/-- A concrete pointer-typed SSA value used in concrete evaluations. -/
def pVal : Val := ⟨"p", true, false, false⟩

/-- A second concrete pointer-typed SSA value. -/
def qVal : Val := ⟨"q", true, false, false⟩

/-- A concrete void-typed call-result value. -/
def voidVal : Val := ⟨"v", false, false, false⟩

/-- A concrete in-state in which `p` is definitely freed. -/
def mFreed : Memory := [("p", ⟨Element.Freed, NullState.Unknown⟩)]

/-- Overwriting insertion into an abstract memory
(`std::map::operator[]` assignment). -/
def memInsert (k : String) (d : Domain) (m : Memory) : Memory :=
  (k, d) :: m.filter (fun p => ¬ (p.1 = k))

/-- A copy of a memory made entry by entry with the single-argument
`Domain` constructor (`new Domain(kv.second->Value)`), which resets every
nullness to `Unknown`.  This is how ChaoticIteration.cpp copies memories
in `join` (line 75), `flowIn` (lines 110, 116) and `flowOut`
(lines 180, 184, 193). -/
def stripCopy (m : Memory) : Memory :=
  m.map (fun p => (p.1, ⟨p.2.value, NullState.Unknown⟩))

/-- The memory join of ChaoticIteration.cpp (`join`, lines 64-95): copy
`Mem1` with the single-argument constructor; then for each entry of
`Mem2`, insert it (stripped) if its key is absent, and otherwise replace
the entry with `Domain::join` of the copied value and `Mem2`'s value. -/
def memJoin (m1 m2 : Memory) : Memory :=
  m2.foldl
    (fun res kv =>
      match memLookup kv.1 res with
      | none => res ++ [(kv.1, ⟨kv.2.value, NullState.Unknown⟩)]
      | some d1 => memInsert kv.1 (Domain.join d1 kv.2) res)
    (stripCopy m1)

/-- `DoubleFreeAnalysis::flowIn` (ChaoticIteration.cpp, lines 97-120) as
a function of the predecessors' out-memories: clear the in-memory, then
for each predecessor copy its out-memory in (stripped) if the in-memory
is still empty, and otherwise replace the in-memory by a stripped copy of
the join.  No guard information enters this computation. -/
def flowIn (predOuts : List Memory) : Memory :=
  predOuts.foldl
    (fun inMem predOut =>
      if inMem.isEmpty then stripCopy predOut else stripCopy (memJoin inMem predOut))
    []

/-- `equal` on memories (ChaoticIteration.cpp, lines 130-168): an entry
missing on one side must have freshness `Uninit`; entries present on both
sides must be `Domain::equal`. -/
def memEqual (m1 m2 : Memory) : Bool :=
  (m1.all fun p =>
    match memLookup p.1 m2 with
    | none => decide (p.2.value = Element.Uninit)
    | some d2 => Domain.equal p.2 d2) &&
  (m2.all fun p => (memLookup p.1 m1).isSome || decide (p.2.value = Element.Uninit))

/-- The new out-memory built by `DoubleFreeAnalysis::flowOut`
(ChaoticIteration.cpp, lines 177-185): a stripped copy of the
pre-transfer memory, overwritten by a stripped copy of the post-transfer
memory. -/
def flowOutNew (pre post : Memory) : Memory :=
  post.foldl (fun acc kv => memInsert kv.1 ⟨kv.2.value, NullState.Unknown⟩ acc)
    (stripCopy pre)

/-- The entry-state seeding of `doAnalysis` (ChaoticIteration.cpp, lines
234-238): every function argument is mapped to `Live` with the
single-argument constructor, hence nullness `Unknown`. -/
def seedArgs (args : List String) (m : Memory) : Memory :=
  args.foldl (fun acc a => memInsert a ⟨Element.Live, NullState.Unknown⟩ acc) m

/-- `SetVector::insert`: append if not already present. -/
def wsInsert (w : List Nat) (j : Nat) : List Nat :=
  if j ∈ w then w else w ++ [j]

/-- The inputs of `doAnalysis` (ChaoticIteration.cpp, lines 201-245):
the instruction list (by index), the CFG predecessor and successor maps
(`getPredecessors` / `getSuccessors`), the function arguments, and the
transfer function.  The transfer is a parameter: the invariant proved
below holds for the engine whatever the transfer writes. -/
structure EngParams where
  insts : List Nat
  preds : Nat → List Nat
  succs : Nat → List Nat
  args : List String
  tf : Nat → Memory → Memory

/-- The engine state: `InMap`, `OutMap` and the worklist (a `SetVector`
popped from the back). -/
structure EngState where
  inM : Nat → Memory
  outM : Nat → Memory
  work : List Nat

/-- Initial engine state: empty memories, every instruction on the
worklist. -/
def engInit (P : EngParams) : EngState :=
  ⟨fun _ => [], fun _ => [], P.insts⟩

/-- One iteration of the worklist loop of `doAnalysis` together with
`flowOut` (ChaoticIteration.cpp, lines 228-244 and 170-199): pop the last
instruction, recompute its in-memory with `flowIn` (seeding arguments at
entry instructions), run the transfer, build the new out-memory, and on a
change overwrite `OutMap` (with stripped copies) and push the
successors. -/
def engStep (P : EngParams) (s : EngState) : EngState :=
  match s.work.getLast? with
  | none => s
  | some i =>
    let work0 := s.work.dropLast
    let inm0 := flowIn ((P.preds i).map s.outM)
    let inm := if P.preds i = [] then seedArgs P.args inm0 else inm0
    let post := P.tf i inm
    let outNew := flowOutNew inm post
    if memEqual (s.outM i) outNew then
      { inM := Function.update s.inM i inm, outM := s.outM, work := work0 }
    else
      { inM := Function.update s.inM i inm,
        outM := Function.update s.outM i (stripCopy outNew),
        work := (P.succs i).foldl wsInsert work0 }

/-- The worklist loop after a given number of iterations. -/
def engRun (P : EngParams) : Nat → EngState
  | 0 => engInit P
  | n + 1 => engStep P (engRun P n)

/-- `isInput` (src/Transfer.cpp, lines 12-19): a call whose resolved
callee is `getchar` or `fgetc`. -/
def isInput : Inst → Bool
  | Inst.call (some fn) _ _ _ => fn = "getchar" || fn = "fgetc"
  | _ => false

/-- The parts of `DoubleFreeAnalysis::transfer` that the repository does
not define in well-typed form, gathered as parameters.  Transfer.cpp
names the members `Domain::MaybeZero`, `Domain::Zero`, `Domain::NonZero`,
`Domain::add`, `Domain::sub`, `Domain::mul` and `Domain::div`, none of
which exist in include/Domain.h, so the user-input branch (line 132), the
binary-operator evaluation (lines 50-67) and the comparison evaluation
(lines 88-123) and the integer-call branch (line 231) have no well-typed
meaning; `extractFromValue` comes from the absent `Utils.h`.  Every
theorem below that evaluates `dfTransfer` does so on instructions that
never reach these branches, so it holds for every choice of these
parameters. -/
structure TransferEnv where
  inputElt : Element
  binopVal : Memory → Val → Val → Domain
  cmpVal : Memory → Val → Val → Domain
  callIntElt : Element
  extractElt : Val → Element
  aliasFn : String → String → Bool
  ptrSet : List Val

/-- `eval` of a phi node (src/Transfer.cpp, lines 28-40): the constant
value's extraction when the phi collapses to a constant, and otherwise the
`Domain::join` of the incoming values' abstract values, starting from an
`Uninit` domain. -/
def evalPhi (env : TransferEnv) (incs : List Val) (constVal : Option Val)
    (inMem : Memory) : Domain :=
  match constVal with
  | some cv => ⟨env.extractElt cv, NullState.Unknown⟩
  | none =>
    incs.foldl (fun j v => Domain.join j (getOrExtract inMem v))
      ⟨Element.Uninit, NullState.Unknown⟩

/-- `DoubleFreeAnalysis::transfer` (src/Transfer.cpp, lines 125-238) as a
function from the in-memory to the entries it writes into the fresh
out-memory `NOut`.  The dispatch order follows the source: the user-input
test first, then phi, binary operator, cast, comparison, alloca, store,
load, branch, call, return.  There is no allocation or deallocation case:
a call is only written when its return type is an integer type (line
230), so calls to `free` (void return) and pointer-returning allocator
calls write nothing. -/
def dfTransfer (env : TransferEnv) (i : Inst) (inMem : Memory) : Memory :=
  if isInput i then
    match i with
    | Inst.call _ res _ _ => [(varName res, ⟨env.inputElt, NullState.Unknown⟩)]
    | _ => []
  else
    match i with
    | Inst.phi res incs constVal => [(varName res, evalPhi env incs constVal inMem)]
    | Inst.binop res l r => [(varName res, env.binopVal inMem l r)]
    | Inst.cast res op => [(varName res, getOrExtract inMem op)]
    | Inst.cmp res l r => [(varName res, env.cmpVal inMem l r)]
    | Inst.alloca _ => []
    | Inst.store v ptr =>
      if ¬ v.isIntTy then []
      else
        let stored := getOrExtract inMem v
        let j1 := Domain.join ⟨stored.value, NullState.Unknown⟩ (getOrExtract inMem ptr)
        let joined := env.ptrSet.foldl
          (fun j w =>
            if w.isPtrTy && env.aliasFn (varName ptr) (varName w) then
              Domain.join j (getOrExtract inMem w)
            else j)
          j1
        env.ptrSet.foldl
          (fun acc w =>
            if w.isPtrTy && env.aliasFn (varName ptr) (varName w) then
              memInsert (varName w) ⟨joined.value, NullState.Unknown⟩ acc
            else acc)
          [(varName ptr, ⟨joined.value, NullState.Unknown⟩)]
    | Inst.load res ptr =>
      match memLookup (varName res) inMem with
      | some d => [(varName res, ⟨d.value, NullState.Unknown⟩)]
      | none => [(varName res, getOrExtract inMem ptr)]
    | Inst.gep _ _ => []
    | Inst.branch => []
    | Inst.call _ res retIsInt _ =>
      if retIsInt then [(varName res, ⟨env.callIntElt, NullState.Unknown⟩)] else []
    | Inst.ret => []
    | Inst.other => []

/-- A concrete `TransferEnv` for evaluating the transfer at allocation
and deallocation calls; its alias function says every pair of names may
alias, the most favourable reading for the claimed alias propagation. -/
def env0 : TransferEnv :=
  ⟨Element.Uninit, fun _ _ _ => Domain.bot, fun _ _ _ => Domain.bot,
   Element.Uninit, fun _ => Element.Uninit, fun _ _ => true, [pVal, qVal]⟩

/-- A concrete pointer-typed allocation result value. -/
def rVal : Val := ⟨"r", true, false, false⟩

/-- A concrete in-state in which `p` and `q` are both live. -/
def mLive : Memory :=
  [("p", ⟨Element.Live, NullState.Unknown⟩), ("q", ⟨Element.Live, NullState.Unknown⟩)]

/-- Modelled from the spec (§4.4 step 2 and claim C7): `flowIn` followed
by guard refinement — every name in the parent block's guard set whose
current nullness is `MaybeNull` or `Unknown` is raised to `NotNull`,
freshness unchanged.  The repository declares the guard machinery
(`PointerAnalysis::analyzeNullGuards`, `GuardedNotNull`,
`isGuardedNotNull` in include/PointerAnalysis.h) but defines none of it,
and its `flowIn` takes no guard information. -/
def flowInSpec (guards : List String) (predOuts : List Memory) : Memory :=
  (flowIn predOuts).map
    (fun p =>
      if p.1 ∈ guards ∧ (p.2.nstate = NullState.MaybeNull ∨ p.2.nstate = NullState.Unknown)
      then (p.1, ⟨p.2.value, NullState.NotNull⟩)
      else p)

/-- A predecessor out-memory in which the guarded name `g` is live and
known not null. -/
def mGuard : Memory := [("g", ⟨Element.Live, NullState.NotNull⟩)]

/-- Every abstract value stored in a memory has nullness `Unknown`. -/
def memAllU (m : Memory) : Prop := ∀ p ∈ m, p.2.nstate = NullState.Unknown

/-- A one-instruction engine input used to witness the engine invariant:
instruction 0 has no predecessors and no successors, the function has one
argument `a`, and the transfer writes nothing. -/
def P0 : EngParams :=
  ⟨[0], fun _ => [], fun _ => [], ["a"], fun _ _ => []⟩

/-- The reserved symbol for the null address (the string `NULL` of
PointerAnalysis.cpp). -/
def nullSymbol : String := "NULL"

/-- Modelled from the spec: `address` comes from `Utils.h`, which is not
part of the repository; per §3 an abstract address is "a distinguished
symbol identifying ... an allocation site (named after the allocating
instruction or a pointer argument)". -/
def address (v : Val) : String := "&" ++ v.name

/-- A points-to state (`PointsToInfo` =
`std::map<std::string, PointsToSet>`): each name's finite set of abstract
addresses; a key that was never written maps to the empty set, matching
`operator[]` default construction. -/
abbrev PTMap : Type := String → Finset String

/-- Overwriting update of a points-to state at one key. -/
def ptUpdate (pt : PTMap) (k : String) (s : Finset String) : PTMap :=
  fun x => if x = k then s else pt x

/-- `PointerAnalysis::transfer` (src/PointerAnalysis.cpp, lines 10-101):
the points-to effect of one instruction.  Allocas and pointer-returning
calls insert a fresh address into the result's set; stores union the
right-hand side's set (or the null symbol) into every target of the
pointer's set; loads overwrite the result's set with the union of the
sets of the pointer's targets; casts and pointer-offset computations
overwrite the result's set with the operand's set; phis overwrite the
result's set with the union of the pointer-typed incoming values' sets;
other instructions have no effect. -/
def ptTransfer (pt : PTMap) (i : Inst) : PTMap :=
  match i with
  | Inst.alloca res =>
    ptUpdate pt (varName res) (insert (address res) (pt (varName res)))
  | Inst.store v ptr =>
    if ¬ v.isPtrTy then pt
    else
      let R : Finset String := if v.isNullConst then {nullSymbol} else pt (varName v)
      fun k => if k ∈ pt (varName ptr) then pt k ∪ R else pt k
  | Inst.load res ptr =>
    if ¬ res.isPtrTy then pt
    else ptUpdate pt (varName res) ((pt (varName ptr)).biUnion pt)
  | Inst.call _ res _ _ =>
    if res.isPtrTy then
      ptUpdate pt (varName res) (insert (address res) (pt (varName res)))
    else pt
  | Inst.cast res op =>
    if res.isPtrTy && op.isPtrTy then ptUpdate pt (varName res) (pt (varName op)) else pt
  | Inst.gep res base =>
    if res.isPtrTy then ptUpdate pt (varName res) (pt (varName base)) else pt
  | Inst.phi res incs _ =>
    if ¬ res.isPtrTy then pt
    else
      ptUpdate pt (varName res)
        (incs.foldl (fun acc v => if v.isPtrTy then acc ∪ pt (varName v) else acc) ∅)
  | _ => pt

/-- One pass of the points-to fixpoint loop (the inner `for` of the
`PointerAnalysis` constructor, PointerAnalysis.cpp lines 134-137): apply
the transfer to every instruction in order. -/
def ptPass (insts : List Inst) (pt : PTMap) : PTMap :=
  insts.foldl ptTransfer pt

/-- The initial points-to state (PointerAnalysis.cpp lines 126-131):
every pointer-typed argument points to a unique abstract address named
after it. -/
def ptInit (args : List Val) : PTMap :=
  args.foldl
    (fun pt a =>
      if a.isPtrTy then ptUpdate pt (varName a) (insert (address a) (pt (varName a)))
      else pt)
    (fun _ => ∅)

/-- The points-to state after a given number of passes of the fixpoint
loop. -/
def ptIter (args : List Val) (insts : List Inst) : Nat → PTMap
  | 0 => ptInit args
  | n + 1 => ptPass insts (ptIter args insts n)

/-- `PointerAnalysis::alias` (src/PointerAnalysis.cpp, lines 147-157):
two names may alias iff their points-to sets intersect (a name that was
never written has the empty set and aliases nothing). -/
def ptAlias (pt : PTMap) (p1 p2 : String) : Bool :=
  ¬ (pt p1 ∩ pt p2) = ∅

/-- The key that an instruction's points-to transfer *overwrites* (as
opposed to growing): loads, casts, pointer-offsets and phis assign their
result's set rather than union into it.  In SSA form these result names
are fresh, in particular distinct from the argument names. -/
def ptOverwrites : Inst → Option String
  | Inst.load res _ => if res.isPtrTy then some (varName res) else none
  | Inst.cast res op => if res.isPtrTy && op.isPtrTy then some (varName res) else none
  | Inst.gep res _ => if res.isPtrTy then some (varName res) else none
  | Inst.phi res _ _ => if res.isPtrTy then some (varName res) else none
  | _ => none

/-- A concrete stack slot value for the points-to witness program. -/
def xVal : Val := ⟨"x", true, false, false⟩

/-- A concrete two-instruction program (a stack allocation and a pointer
cast of the argument) used to witness the points-to monotonicity
theorem. -/
def ptProg : List Inst := [Inst.alloca xVal, Inst.cast rVal pVal]

/-- An in-state equal (under the engine's memory equality, which
identifies a missing key with a present `Uninit`) to
`[p ↦ (Live, Unknown)]` but with `x` explicitly present as `Uninit`. -/
def mB : Memory :=
  [("p", ⟨Element.Live, NullState.Unknown⟩), ("x", ⟨Element.Uninit, NullState.Unknown⟩)]

/-- C2: the double-free checker flags an instruction iff it is a call to
`free` whose (first) pointer argument has in-state freshness `Freed` or
`MaybeFreed`; no other instruction is flagged. -/
theorem doubleFree_flags_iff_freed_free_call (m : Memory) (i : Inst) :
    doubleFreeCheck m i = true ↔ ∃ p, freeCallArg i = some p ∧ freedish m p := by
  cases i with
  | call callee res retIsInt args =>
    cases callee with
    | none => simp [doubleFreeCheck, freeCallArg]
    | some fn =>
      cases args with
      | nil => simp [doubleFreeCheck, freeCallArg]
      | cons p rest =>
        by_cases h : fn = "free"
        · subst h
          simp [doubleFreeCheck, freeCallArg]
        · simp [doubleFreeCheck, freeCallArg, h]
  | phi res incs constVal => simp [doubleFreeCheck, freeCallArg]
  | binop res lhs rhs => simp [doubleFreeCheck, freeCallArg]
  | cast res op => simp [doubleFreeCheck, freeCallArg]
  | cmp res lhs rhs => simp [doubleFreeCheck, freeCallArg]
  | alloca res => simp [doubleFreeCheck, freeCallArg]
  | store v ptr => simp [doubleFreeCheck, freeCallArg]
  | load res ptr => simp [doubleFreeCheck, freeCallArg]
  | gep res base => simp [doubleFreeCheck, freeCallArg]
  | branch => simp [doubleFreeCheck, freeCallArg]
  | ret => simp [doubleFreeCheck, freeCallArg]
  | other => simp [doubleFreeCheck, freeCallArg]

/-- C2 witness: the double-free checker flags `free(p)` when `in[p]` is
`(Freed, Unknown)`. -/
theorem doubleFree_flags_iff_witness :
    doubleFreeCheck mFreed (Inst.call (some "free") voidVal false [pVal]) = true :=
  (doubleFree_flags_iff_freed_free_call mFreed
    (Inst.call (some "free") voidVal false [pVal])).mpr ⟨pVal, by decide, by decide⟩

/-- C4 counterexample: the claim says a call to `free` itself is never
flagged by the use-after-free checker, but the source's call branch has no
such exclusion: with `in[p] = (Freed, Unknown)`, the call `free(p)` is a
deallocation call and the UAF checker flags it. -/
theorem uaf_flags_free_call_counterexample :
    freeCallArg (Inst.call (some "free") voidVal false [pVal]) = some pVal ∧
      useAfterFreeCheck mFreed (Inst.call (some "free") voidVal false [pVal]) = true := by
  constructor
  · decide
  · decide

/-- C4 amended: the use-after-free checker flags an instruction iff it
loads through a `Freed`/`MaybeFreed` pointer, stores through one, or is
any call (calls to `free` included) passing a pointer-typed argument with
in-state freshness `Freed` or `MaybeFreed`. -/
theorem uaf_flags_iff_load_store_call (m : Memory) (i : Inst) :
    useAfterFreeCheck m i = true ↔
      ((∃ r p, i = Inst.load r p ∧ freedish m p) ∨
       (∃ v p, i = Inst.store v p ∧ freedish m p) ∨
       (∃ c r b args, i = Inst.call c r b args ∧
          ∃ a, a ∈ args ∧ a.isPtrTy = true ∧ freedish m a)) := by
  constructor
  · intro h
    cases i with
    | load res ptr => exact Or.inl ⟨res, ptr, rfl, by simpa [useAfterFreeCheck] using h⟩
    | store v ptr => exact Or.inr (Or.inl ⟨v, ptr, rfl, by simpa [useAfterFreeCheck] using h⟩)
    | call c r b args =>
      obtain ⟨a, ha, hp, hf⟩ :
          ∃ a, a ∈ args ∧ a.isPtrTy = true ∧ freedish m a := by
        simpa [useAfterFreeCheck, List.any_eq_true, and_assoc] using h
      exact Or.inr (Or.inr ⟨c, r, b, args, rfl, a, ha, hp, hf⟩)
    | phi res incs constVal => exact absurd h (by simp [useAfterFreeCheck])
    | binop res lhs rhs => exact absurd h (by simp [useAfterFreeCheck])
    | cast res op => exact absurd h (by simp [useAfterFreeCheck])
    | cmp res lhs rhs => exact absurd h (by simp [useAfterFreeCheck])
    | alloca res => exact absurd h (by simp [useAfterFreeCheck])
    | gep res base => exact absurd h (by simp [useAfterFreeCheck])
    | branch => exact absurd h (by simp [useAfterFreeCheck])
    | ret => exact absurd h (by simp [useAfterFreeCheck])
    | other => exact absurd h (by simp [useAfterFreeCheck])
  · rintro (⟨r, p, rfl, hf⟩ | ⟨v, p, rfl, hf⟩ | ⟨c, r, b, args, rfl, a, ha, hp, hf⟩)
    · simpa [useAfterFreeCheck] using hf
    · simpa [useAfterFreeCheck] using hf
    · simp only [useAfterFreeCheck, List.any_eq_true]
      exact ⟨a, ha, by simp [hp, hf]⟩

/-- C4 witness: the amended characterisation at a concrete load of a
freed pointer. -/
theorem uaf_flags_iff_witness :
    useAfterFreeCheck mFreed (Inst.load qVal pVal) = true :=
  (uaf_flags_iff_load_store_call mFreed (Inst.load qVal pVal)).mpr
    (Or.inl ⟨qVal, pVal, rfl, by decide⟩)

/-- C5 counterexample: `Domain::join` is not the component-wise join of
the specification.  At `(Uninit, Null)` and `(Live, NotNull)` the source
returns the second argument wholesale, `(Live, NotNull)`, while the
component-wise nullness join of `Null` and `NotNull` is `MaybeNull`. -/
theorem join_not_componentwise_counterexample :
    Domain.join ⟨Element.Uninit, NullState.Null⟩ ⟨Element.Live, NullState.NotNull⟩ =
        ⟨Element.Live, NullState.NotNull⟩ ∧
      specJoin ⟨Element.Uninit, NullState.Null⟩ ⟨Element.Live, NullState.NotNull⟩ =
        ⟨Element.Live, NullState.MaybeNull⟩ ∧
      Domain.join ⟨Element.Uninit, NullState.Null⟩ ⟨Element.Live, NullState.NotNull⟩ ≠
        specJoin ⟨Element.Uninit, NullState.Null⟩ ⟨Element.Live, NullState.NotNull⟩ := by
  refine ⟨by decide, by decide, by decide⟩

/-- C5 amended: `Domain::join` returns its second argument wholesale when
the first freshness is `Uninit`, its first argument wholesale when the
second freshness is `Uninit`, and the component-wise join
`(join_f, join_n)` of the specification in every other case. -/
theorem join_eq_componentwise_unless_uninit (a b : Domain) :
    Domain.join a b =
      (if a.value = Element.Uninit then b
       else if b.value = Element.Uninit then a
       else specJoin a b) := by
  revert a b; decide

/-- C6 counterexample: `Domain::join` is not commutative and
`(Uninit, Unknown)` is not a two-sided identity: joining the two
`Uninit` values with distinct nullness returns whichever argument is
second, and joining `(Uninit, Null)` with bottom loses the nullness. -/
theorem join_comm_identity_counterexample :
    Domain.join ⟨Element.Uninit, NullState.Null⟩ ⟨Element.Uninit, NullState.NotNull⟩ ≠
        Domain.join ⟨Element.Uninit, NullState.NotNull⟩ ⟨Element.Uninit, NullState.Null⟩ ∧
      Domain.join ⟨Element.Uninit, NullState.Null⟩ Domain.bot ≠
        ⟨Element.Uninit, NullState.Null⟩ := by
  refine ⟨by decide, by decide⟩

/-- C6 amended: `Domain::join` is associative and idempotent on all
abstract values; it is commutative provided not both arguments have
freshness `Uninit` with distinct nullness; and `(Uninit, Unknown)` is a
right identity provided the argument's freshness is not `Uninit` or its
nullness is `Unknown`. -/
theorem join_assoc_idem_comm_identity (a b c : Domain) :
    Domain.join (Domain.join a b) c = Domain.join a (Domain.join b c) ∧
      Domain.join a a = a ∧
      ((a.value ≠ Element.Uninit ∨ b.value ≠ Element.Uninit ∨ a.nstate = b.nstate) →
        Domain.join a b = Domain.join b a) ∧
      ((a.value ≠ Element.Uninit ∨ a.nstate = NullState.Unknown) →
        Domain.join a Domain.bot = a) := by
  revert a b c; decide

/-- C6 witness: the amended properties at concrete values, with the side
conditions discharged. -/
theorem join_assoc_idem_comm_identity_witness :
    Domain.join
        (Domain.join ⟨Element.Live, NullState.Null⟩ ⟨Element.Freed, NullState.NotNull⟩)
        ⟨Element.Live, NullState.Unknown⟩ =
      Domain.join ⟨Element.Live, NullState.Null⟩
        (Domain.join ⟨Element.Freed, NullState.NotNull⟩ ⟨Element.Live, NullState.Unknown⟩) ∧
    Domain.join ⟨Element.Live, NullState.Null⟩ ⟨Element.Freed, NullState.NotNull⟩ =
      Domain.join ⟨Element.Freed, NullState.NotNull⟩ ⟨Element.Live, NullState.Null⟩ ∧
    Domain.join ⟨Element.Live, NullState.Null⟩ Domain.bot = ⟨Element.Live, NullState.Null⟩ := by
  obtain ⟨h1, _, h3, h4⟩ :=
    join_assoc_idem_comm_identity ⟨Element.Live, NullState.Null⟩
      ⟨Element.Freed, NullState.NotNull⟩ ⟨Element.Live, NullState.Unknown⟩
  exact ⟨h1, h3 (by decide), h4 (by decide)⟩

/-- Every value of a stripped copy has nullness `Unknown`. -/
theorem stripCopy_allU (m : Memory) : memAllU (stripCopy m) := by
  intro p hp
  obtain ⟨q, _, rfl⟩ := List.mem_map.mp hp
  rfl

/-- Inserting a value with nullness `Unknown` preserves `memAllU`. -/
theorem memInsert_allU {m : Memory} {k : String} {d : Domain}
    (hm : memAllU m) (hd : d.nstate = NullState.Unknown) :
    memAllU (memInsert k d m) := by
  intro p hp
  rcases List.mem_cons.mp hp with h | h
  · subst h; exact hd
  · exact hm p (List.mem_of_mem_filter h)

/-- Every abstract value produced by `flowIn` has nullness `Unknown`:
each fold step returns a stripped copy. -/
theorem flowIn_allU (predOuts : List Memory) : memAllU (flowIn predOuts) := by
  unfold flowIn
  have aux : ∀ (l : List Memory) (acc : Memory), memAllU acc →
      memAllU (l.foldl
        (fun inMem predOut =>
          if inMem.isEmpty then stripCopy predOut else stripCopy (memJoin inMem predOut))
        acc) := by
    intro l
    induction l with
    | nil => intro acc h; exact h
    | cons x xs ih =>
      intro acc h
      refine ih _ ?_
      by_cases hc : acc.isEmpty
      · simpa [hc] using stripCopy_allU x
      · simpa [hc] using stripCopy_allU (memJoin acc x)
  exact aux predOuts [] (by intro p hp; cases hp)

/-- The argument seeding writes only `(Live, Unknown)` values. -/
theorem seedArgs_allU (args : List String) {m : Memory} (hm : memAllU m) :
    memAllU (seedArgs args m) := by
  induction args generalizing m with
  | nil => exact hm
  | cons a as ih => exact ih (memInsert_allU hm rfl)

/-- Every abstract value of the out-memory built by `flowOut` has
nullness `Unknown`, whatever the transfer wrote. -/
theorem flowOutNew_allU (pre post : Memory) : memAllU (flowOutNew pre post) := by
  unfold flowOutNew
  have aux : ∀ (l : Memory) (acc : Memory), memAllU acc →
      memAllU (l.foldl
        (fun acc kv => memInsert kv.1 ⟨kv.2.value, NullState.Unknown⟩ acc) acc) := by
    intro l
    induction l with
    | nil => intro acc h; exact h
    | cons x xs ih => intro acc h; exact ih _ (memInsert_allU h rfl)
  exact aux post _ (stripCopy_allU pre)

/-- One engine step preserves the all-nullness-`Unknown` invariant of
`InMap` and `OutMap`. -/
theorem engStep_allU (P : EngParams) (s : EngState)
    (h : ∀ j, memAllU (s.inM j) ∧ memAllU (s.outM j)) :
    ∀ j, memAllU ((engStep P s).inM j) ∧ memAllU ((engStep P s).outM j) := by
  intro j
  unfold engStep
  cases hl : s.work.getLast? with
  | none => exact h j
  | some i =>
    by_cases hc : memEqual (s.outM i)
        (flowOutNew
          (if P.preds i = [] then seedArgs P.args (flowIn ((P.preds i).map s.outM))
           else flowIn ((P.preds i).map s.outM))
          (P.tf i
            (if P.preds i = [] then seedArgs P.args (flowIn ((P.preds i).map s.outM))
             else flowIn ((P.preds i).map s.outM)))) = true
    · simp only [hc, if_pos]
      constructor
      · rw [Function.update_apply]
        by_cases hj : j = i
        · simp only [hj, if_pos rfl]
          by_cases hp : P.preds i = []
          · simpa [hp] using seedArgs_allU P.args (flowIn_allU ((P.preds i).map s.outM))
          · simpa [hp] using flowIn_allU ((P.preds i).map s.outM)
        · simp only [if_neg hj]
          exact (h j).1
      · exact (h j).2
    · simp only [hc, Bool.false_eq_true, if_false]
      constructor
      · rw [Function.update_apply]
        by_cases hj : j = i
        · simp only [hj, if_pos rfl]
          by_cases hp : P.preds i = []
          · simpa [hp] using seedArgs_allU P.args (flowIn_allU ((P.preds i).map s.outM))
          · simpa [hp] using flowIn_allU ((P.preds i).map s.outM)
        · simp only [if_neg hj]
          exact (h j).1
      · rw [Function.update_apply]
        by_cases hj : j = i
        · simp only [hj, if_pos rfl]
          exact stripCopy_allU _
        · simp only [if_neg hj]
          exact (h j).2

/-- At every iteration count, all values of `InMap` and `OutMap` have
nullness `Unknown`. -/
theorem engRun_allU (P : EngParams) (fuel : Nat) :
    ∀ j, memAllU ((engRun P fuel).inM j) ∧ memAllU ((engRun P fuel).outM j) := by
  induction fuel with
  | zero =>
    intro j
    constructor <;> (intro p hp; cases hp)
  | succ n ih => exact engStep_allU P (engRun P n) ih

/-- A successful memory lookup comes from an entry of the list. -/
theorem memLookup_mem {m : Memory} {k : String} {d : Domain}
    (h : memLookup k m = some d) : ∃ p ∈ m, p.2 = d := by
  unfold memLookup at h
  obtain ⟨p, hp, rfl⟩ := Option.map_eq_some'.mp h
  exact ⟨p, List.mem_of_find?_eq_some hp, rfl⟩

/-- C1: the claim says a deallocation call `free(p)` sets
`out[p].freshness` to `Freed` (from `Live`) and sets every may-alias `q`
to `(Freed, in[q].nullness)`.  Evaluating the repository's transfer at
`free(p)` with `in = [p ↦ (Live,Unknown), q ↦ (Live,Unknown)]` and an
alias relation that holds for every pair: the transfer writes nothing
(a `free` call has void return type, and Transfer.cpp's call branch only
writes integer-typed results), so the out-state keeps `p` and `q` at
freshness `Live`, not `Freed` or `MaybeFreed`. -/
theorem free_transfer_leaves_state_unchanged :
    dfTransfer env0 (Inst.call (some "free") voidVal false [pVal]) mLive = [] ∧
      memLookup "p" (flowOutNew mLive
          (dfTransfer env0 (Inst.call (some "free") voidVal false [pVal]) mLive)) =
        some ⟨Element.Live, NullState.Unknown⟩ ∧
      memLookup "q" (flowOutNew mLive
          (dfTransfer env0 (Inst.call (some "free") voidVal false [pVal]) mLive)) =
        some ⟨Element.Live, NullState.Unknown⟩ ∧
      Element.Live ≠ Element.Freed ∧ Element.Live ≠ Element.MaybeFreed := by
  refine ⟨by decide, by decide, by decide, by decide, by decide⟩

/-- C3: the claim says an allocation call with pointer-typed result `r`
sets `out[r]` to `(Live, NotNull)`.  Evaluating the repository's transfer
at `r = malloc(...)`: the transfer writes nothing (the call branch of
Transfer.cpp only writes integer-typed results, and `r` is
pointer-typed), so `out[r]` stays at the missing-key default
`(Uninit, Unknown)` — freshness is not `Live` and nullness is not
`NotNull`. -/
theorem alloc_transfer_leaves_result_uninit :
    dfTransfer env0 (Inst.call (some "malloc") rVal false []) [] = [] ∧
      getOrExtract (flowOutNew []
          (dfTransfer env0 (Inst.call (some "malloc") rVal false []) [])) rVal =
        Domain.bot ∧
      Domain.bot.value ≠ Element.Live ∧ Domain.bot.nstate ≠ NullState.NotNull := by
  refine ⟨by decide, by decide, by decide, by decide⟩

/-- C7 counterexample: with one predecessor whose out-state maps `g` to
`(Live, NotNull)` and with `g` in the parent block's guard set (guarded
on its only predecessor edge), the claim requires `flowIn` to leave `g`
with nullness `NotNull` (raising it, since the joined nullness `Unknown`
is in `{MaybeNull, Unknown}`).  The repository's `flowIn` consumes no
guard information and strips nullness to `Unknown`, so it disagrees with
the guard-refining `flowInSpec` modelled from the claim. -/
theorem flowIn_guard_refinement_counterexample :
    memLookup "g" (flowIn [mGuard]) = some ⟨Element.Live, NullState.Unknown⟩ ∧
      memLookup "g" (flowInSpec ["g"] [mGuard]) =
        some ⟨Element.Live, NullState.NotNull⟩ ∧
      flowIn [mGuard] ≠ flowInSpec ["g"] [mGuard] := by
  refine ⟨by decide, by decide, by decide⟩

/-- C7 amended: `flowIn(I)` clears the in-memory and joins the
predecessors' out-states into it, copying only the freshness component:
every name's nullness in the result is `Unknown`, and no guard
refinement is applied. -/
theorem flowIn_strips_nullness (predOuts : List Memory) (k : String) (d : Domain)
    (h : memLookup k (flowIn predOuts) = some d) : d.nstate = NullState.Unknown := by
  obtain ⟨p, hp, rfl⟩ := memLookup_mem h
  exact flowIn_allU predOuts p hp

/-- C7 witness: the amended property at the concrete predecessor
out-state of the counterexample. -/
theorem flowIn_strips_nullness_witness :
    memLookup "g" (flowIn [mGuard]) = some ⟨Element.Live, NullState.Unknown⟩ ∧
      (⟨Element.Live, NullState.Unknown⟩ : Domain).nstate = NullState.Unknown :=
  ⟨by decide, flowIn_strips_nullness [mGuard] "g" ⟨Element.Live, NullState.Unknown⟩ (by decide)⟩

/-- C10: for every transfer function, every iteration count, every
instruction and every SSA name, each abstract value stored in the
engine's `InMap` or `OutMap` has nullness component `Unknown`: the
memory join, `flowIn`, `flowOut` and the entry-state seeding construct
the stored values from the freshness component alone
(single-argument `Domain` constructor). -/
theorem engine_maps_nullness_unknown (P : EngParams) (fuel i : Nat) (k : String)
    (d : Domain)
    (h : memLookup k ((engRun P fuel).inM i) = some d ∨
         memLookup k ((engRun P fuel).outM i) = some d) :
    d.nstate = NullState.Unknown := by
  obtain h | h := h
  · obtain ⟨p, hp, rfl⟩ := memLookup_mem h
    exact (engRun_allU P fuel i).1 p hp
  · obtain ⟨p, hp, rfl⟩ := memLookup_mem h
    exact (engRun_allU P fuel i).2 p hp

/-- C10 witness: after one iteration on the one-instruction function
`P0`, the seeded argument is present in the in-state and the theorem
yields its nullness. -/
theorem engine_maps_nullness_unknown_witness :
    memLookup "a" ((engRun P0 1).inM 0) = some ⟨Element.Live, NullState.Unknown⟩ ∧
      (⟨Element.Live, NullState.Unknown⟩ : Domain).nstate = NullState.Unknown :=
  ⟨by decide,
   engine_maps_nullness_unknown P0 1 0 "a" ⟨Element.Live, NullState.Unknown⟩
     (Or.inl (by decide))⟩

/-- `ptUpdate` at the updated key. -/
theorem ptUpdate_same (pt : PTMap) (k : String) (s : Finset String) :
    ptUpdate pt k s k = s := by
  simp [ptUpdate]

/-- `ptUpdate` at any other key. -/
theorem ptUpdate_other (pt : PTMap) {x k : String} (hx : x ≠ k) (s : Finset String) :
    ptUpdate pt k s x = pt x := by
  simp [ptUpdate, hx]

/-- The points-to transfer is monotone in the points-to state. -/
theorem ptTransfer_mono {pt pt' : PTMap} (h : ∀ k, pt k ⊆ pt' k) (i : Inst) :
    ∀ k, ptTransfer pt i k ⊆ ptTransfer pt' i k := by
  intro k
  cases i with
  | alloca res =>
    simp only [ptTransfer]
    by_cases hk : k = varName res
    · rw [hk, ptUpdate_same, ptUpdate_same]
      exact Finset.insert_subset_insert _ (h _)
    · rw [ptUpdate_other pt hk, ptUpdate_other pt' hk]
      exact h k
  | store v ptr =>
    cases hv : v.isPtrTy with
    | false => simp only [ptTransfer, hv]; simp; exact h k
    | true =>
      simp only [ptTransfer, hv]
      simp only [Bool.not_true, not_true, Bool.false_eq_true, if_false, ite_false]
      have hR : (if v.isNullConst then ({nullSymbol} : Finset String) else pt (varName v)) ⊆
          (if v.isNullConst then ({nullSymbol} : Finset String) else pt' (varName v)) := by
        cases hn : v.isNullConst with
        | true => simp
        | false => simp only [Bool.false_eq_true, if_false]; exact h _
      by_cases hm : k ∈ pt (varName ptr)
      · have hm2 : k ∈ pt' (varName ptr) := h _ hm
        rw [if_pos hm, if_pos hm2]
        exact Finset.union_subset_union (h k) hR
      · rw [if_neg hm]
        by_cases hm2 : k ∈ pt' (varName ptr)
        · rw [if_pos hm2]
          exact (h k).trans Finset.subset_union_left
        · rw [if_neg hm2]
          exact h k
  | load res ptr =>
    cases hres : res.isPtrTy with
    | false => simp only [ptTransfer, hres]; simp; exact h k
    | true =>
      simp only [ptTransfer, hres]
      simp only [Bool.not_true, not_true, Bool.false_eq_true, if_false, ite_false]
      by_cases hk : k = varName res
      · rw [hk, ptUpdate_same, ptUpdate_same]
        intro a ha
        rw [Finset.mem_biUnion] at ha ⊢
        obtain ⟨t, ht, hat⟩ := ha
        exact ⟨t, h _ ht, h t hat⟩
      · rw [ptUpdate_other pt hk, ptUpdate_other pt' hk]
        exact h k
  | call c res b args =>
    cases hres : res.isPtrTy with
    | false => simp only [ptTransfer, hres]; simp; exact h k
    | true =>
      simp only [ptTransfer, hres, if_pos]
      by_cases hk : k = varName res
      · rw [hk, ptUpdate_same, ptUpdate_same]
        exact Finset.insert_subset_insert _ (h _)
      · rw [ptUpdate_other pt hk, ptUpdate_other pt' hk]
        exact h k
  | cast res op =>
    cases hc : (res.isPtrTy && op.isPtrTy) with
    | false => simp only [ptTransfer, hc]; simp; exact h k
    | true =>
      simp only [ptTransfer, hc, if_pos]
      by_cases hk : k = varName res
      · rw [hk, ptUpdate_same, ptUpdate_same]
        exact h _
      · rw [ptUpdate_other pt hk, ptUpdate_other pt' hk]
        exact h k
  | gep res base =>
    cases hres : res.isPtrTy with
    | false => simp only [ptTransfer, hres]; simp; exact h k
    | true =>
      simp only [ptTransfer, hres, if_pos]
      by_cases hk : k = varName res
      · rw [hk, ptUpdate_same, ptUpdate_same]
        exact h _
      · rw [ptUpdate_other pt hk, ptUpdate_other pt' hk]
        exact h k
  | phi res incs cv =>
    cases hres : res.isPtrTy with
    | false => simp only [ptTransfer, hres]; simp; exact h k
    | true =>
      simp only [ptTransfer, hres]
      simp only [Bool.not_true, not_true, Bool.false_eq_true, if_false, ite_false]
      by_cases hk : k = varName res
      · rw [hk, ptUpdate_same, ptUpdate_same]
        have fold_mono : ∀ (l : List Val) (acc acc' : Finset String), acc ⊆ acc' →
            l.foldl (fun acc v => if v.isPtrTy then acc ∪ pt (varName v) else acc) acc ⊆
              l.foldl (fun acc v => if v.isPtrTy then acc ∪ pt' (varName v) else acc) acc' := by
          intro l
          induction l with
          | nil => intro acc acc' ha; exact ha
          | cons x xs ih =>
            intro acc acc' ha
            cases hx : x.isPtrTy with
            | true =>
              simp only [List.foldl_cons, hx, if_pos]
              exact ih _ _ (Finset.union_subset_union ha (h _))
            | false =>
              simp only [List.foldl_cons, hx, Bool.false_eq_true, if_false]
              exact ih _ _ ha
        exact fold_mono incs ∅ ∅ subset_rfl
      · rw [ptUpdate_other pt hk, ptUpdate_other pt' hk]
        exact h k
  | binop res l r => exact h k
  | cmp res l r => exact h k
  | branch => exact h k
  | ret => exact h k
  | other => exact h k


/-- One full pass of the fixpoint loop is monotone in the points-to
state. -/
theorem ptPass_mono {pt pt' : PTMap} (h : ∀ k, pt k ⊆ pt' k) (insts : List Inst) :
    ∀ k, ptPass insts pt k ⊆ ptPass insts pt' k := by
  induction insts generalizing pt pt' with
  | nil => exact h
  | cons i is ih =>
    simp only [ptPass, List.foldl_cons]
    exact ih (ptTransfer_mono h i)

/-- The points-to transfer never shrinks the set of a key it does not
overwrite: allocas, calls and stores only union into their targets, and
the overwriting instructions touch only their own result key. -/
theorem ptTransfer_keep {pt : PTMap} {i : Inst} {k : String}
    (h : ptOverwrites i ≠ some k) : pt k ⊆ ptTransfer pt i k := by
  cases i with
  | alloca res =>
    simp only [ptTransfer]
    by_cases hk : k = varName res
    · subst hk
      rw [ptUpdate_same]
      exact Finset.subset_insert _ _
    · rw [ptUpdate_other pt hk]
  | store v ptr =>
    cases hv : v.isPtrTy with
    | false => simp [ptTransfer, hv]
    | true =>
      simp only [ptTransfer, hv]
      simp only [Bool.not_true, not_true, Bool.false_eq_true, if_false, ite_false]
      by_cases hm : k ∈ pt (varName ptr)
      · rw [if_pos hm]
        exact Finset.subset_union_left
      · rw [if_neg hm]
  | load res ptr =>
    cases hres : res.isPtrTy with
    | false => simp [ptTransfer, hres]
    | true =>
      have hk : k ≠ varName res := by
        intro e
        exact h (by simp [ptOverwrites, hres, e])
      simp only [ptTransfer, hres]
      simp only [Bool.not_true, not_true, Bool.false_eq_true, if_false, ite_false]
      rw [ptUpdate_other pt hk]
  | call c res b args =>
    cases hres : res.isPtrTy with
    | false => simp [ptTransfer, hres]
    | true =>
      simp only [ptTransfer, hres, if_pos]
      by_cases hk : k = varName res
      · subst hk
        rw [ptUpdate_same]
        exact Finset.subset_insert _ _
      · rw [ptUpdate_other pt hk]
  | cast res op =>
    cases hc : (res.isPtrTy && op.isPtrTy) with
    | false => simp [ptTransfer, hc]
    | true =>
      have hk : k ≠ varName res := by
        intro e
        exact h (by simp [ptOverwrites, hc, e])
      simp only [ptTransfer, hc, if_pos]
      rw [ptUpdate_other pt hk]
  | gep res base =>
    cases hres : res.isPtrTy with
    | false => simp [ptTransfer, hres]
    | true =>
      have hk : k ≠ varName res := by
        intro e
        exact h (by simp [ptOverwrites, hres, e])
      simp only [ptTransfer, hres, if_pos]
      rw [ptUpdate_other pt hk]
  | phi res incs cv =>
    cases hres : res.isPtrTy with
    | false => simp [ptTransfer, hres]
    | true =>
      have hk : k ≠ varName res := by
        intro e
        exact h (by simp [ptOverwrites, hres, e])
      simp only [ptTransfer, hres]
      simp only [Bool.not_true, not_true, Bool.false_eq_true, if_false, ite_false]
      rw [ptUpdate_other pt hk]
  | binop res l r => exact subset_rfl
  | cmp res l r => exact subset_rfl
  | branch => exact subset_rfl
  | ret => exact subset_rfl
  | other => exact subset_rfl

/-- A full pass never shrinks the set of a key no instruction
overwrites. -/
theorem ptPass_keep {k : String} (insts : List Inst)
    (h : ∀ i ∈ insts, ptOverwrites i ≠ some k) (pt : PTMap) :
    pt k ⊆ ptPass insts pt k := by
  induction insts generalizing pt with
  | nil => exact subset_rfl
  | cons i is ih =>
    simp only [ptPass, List.foldl_cons]
    refine (ptTransfer_keep (h i (List.mem_cons_self i is))).trans ?_
    exact ih (fun j hj => h j (List.mem_cons_of_mem _ hj)) (ptTransfer pt i)

/-- Only pointer-typed argument names have a non-empty set in the
initial points-to state. -/
theorem ptInit_ne_empty {args : List Val} {k : String} (h : ptInit args k ≠ ∅) :
    ∃ a ∈ args, a.isPtrTy = true ∧ varName a = k := by
  have aux : ∀ (l : List Val) (base : PTMap),
      (l.foldl
        (fun pt a =>
          if a.isPtrTy then ptUpdate pt (varName a) (insert (address a) (pt (varName a)))
          else pt)
        base) k ≠ ∅ →
      base k ≠ ∅ ∨ ∃ a ∈ l, a.isPtrTy = true ∧ varName a = k := by
    intro l
    induction l with
    | nil => intro base hb; exact Or.inl hb
    | cons x xs ih =>
      intro base hb
      rcases ih _ hb with h0 | h1
      · cases hx : x.isPtrTy with
        | true =>
          by_cases hk : k = varName x
          · exact Or.inr ⟨x, List.mem_cons_self x xs, hx, hk.symm⟩
          · left
            simp only [hx, if_pos] at h0
            rwa [ptUpdate_other base hk] at h0
        | false =>
          left
          simpa [hx] using h0
      · obtain ⟨a, ha, h2⟩ := h1
        exact Or.inr ⟨a, List.mem_cons_of_mem _ ha, h2⟩
  rcases aux args (fun _ => ∅) h with h0 | h1
  · exact absurd rfl h0
  · exact h1

/-- C8: for every SSA name, the points-to set only grows across
iterations of the points-to fixpoint loop, so the points-to map is
monotonic within the function.  The hypothesis is SSA well-formedness:
no instruction's overwritten result name collides with a pointer
argument's name (in SSA form result names are fresh). -/
theorem ptsTo_only_grows_across_iterations (args : List Val) (insts : List Inst)
    (H : ∀ i ∈ insts, ∀ a ∈ args, a.isPtrTy = true → ptOverwrites i ≠ some (varName a)) :
    ∀ (n : Nat) (k : String), ptIter args insts n k ⊆ ptIter args insts (n + 1) k := by
  intro n
  induction n with
  | zero =>
    intro k
    by_cases hw : ∀ i ∈ insts, ptOverwrites i ≠ some k
    · exact ptPass_keep insts hw (ptInit args)
    · push_neg at hw
      obtain ⟨i, hi, hik⟩ := hw
      have hempty : ptInit args k = ∅ := by
        by_contra hne
        obtain ⟨a, ha, hptr, hname⟩ := ptInit_ne_empty hne
        exact H i hi a ha hptr (hname ▸ hik)
      show ptInit args k ⊆ ptIter args insts 1 k
      rw [hempty]
      exact Finset.empty_subset _
  | succ m ih =>
    intro k
    exact ptPass_mono ih insts k

/-- C8 witness: the monotonicity theorem applied to the concrete
two-instruction program `ptProg` with pointer argument `p`, the SSA
hypothesis discharged by computation. -/
theorem ptsTo_only_grows_witness :
    (∀ i ∈ ptProg, ∀ a ∈ [pVal], a.isPtrTy = true → ptOverwrites i ≠ some (varName a)) ∧
      ptIter [pVal] ptProg 0 "p" ⊆ ptIter [pVal] ptProg 1 "p" :=
  ⟨by decide, ptsTo_only_grows_across_iterations [pVal] ptProg (by decide) 0 "p"⟩

/-- The load branch of the transfer (Transfer.cpp, lines 213-221) is not
well defined modulo the engine's own memory equality: on two in-states
that `equal` identifies (a missing key versus a present `Uninit` entry),
it writes `in[ptr]` in one case and `in[lhs]` in the other.  In
particular the transfer is not monotone in the in-state, which blocks the
standard lattice-theoretic termination argument that claim C9 invokes. -/
theorem dfTransfer_load_not_welldefined :
    memEqual [("p", ⟨Element.Live, NullState.Unknown⟩)] mB = true ∧
      dfTransfer env0 (Inst.load xVal pVal) [("p", ⟨Element.Live, NullState.Unknown⟩)] =
        [("x", ⟨Element.Live, NullState.Unknown⟩)] ∧
      dfTransfer env0 (Inst.load xVal pVal) mB =
        [("x", ⟨Element.Uninit, NullState.Unknown⟩)] := by
  refine ⟨by decide, by decide, by decide⟩

end dataflow
